import Mathlib

/-
  Verification of the confluence-importer repository.

  Shallow embedding of the importer's core logic:
  * `safeAxiosCall`            — retry/backoff wrapper (src/unnamed/part_000, lines 126-146)
  * `createOrUpdatePage`       — page reconciliation  (src/unnamed/part_000, lines 149-238)
  * `uploadAttachment`         — attachment upsert    (src/unnamed/part_000, lines 259-365)
  * `extractFrontMatter`       — front-matter split   (src/unnamed/part_002, lines 265-282)
  * `applySelfClosingTags`     — void-tag rewrite     (src/unnamed/part_002, lines 293-302)
  * `processImagesAndLinks`    — reference rewriter   (src/unnamed/part_002, lines 388-509)
  * `getPageMap` / `getHtmlFilesFromIndex` / `loadState` / `importHtmlFiles`
                               — run orchestration    (src/unnamed/part_000, lines 555-737)

  Strings are modelled as `List Char` (named `LC`) so that all definitions are
  executable and concrete instances can be settled by `decide` / `rfl`.
  DOM documents are modelled as flat lists of elements; the external cheerio
  parse/serialize round trip is out of scope (it is an external library), the
  embedded functions follow the JavaScript statement by statement.
-/

abbrev LC := List Char

/-- Whitespace test matching the JavaScript regex class backslash-s on the
ASCII inputs used throughout (space, tab, newline, carriage return, vertical
tab, form feed). -/
def wsChar (c : Char) : Bool :=
  c = ' ' || c = '\t' || c = '\n' || c = '\r' || c = '\x0b' || c = '\x0c'

/-- `String.prototype.trim` on char lists: drop whitespace at both ends. -/
def trimWs (s : LC) : LC :=
  ((s.dropWhile wsChar).reverse.dropWhile wsChar).reverse

/-- `startsWith` on char lists (exact character match). -/
def strStartsWith : LC → LC → Bool
  | _, [] => true
  | [], _ :: _ => false
  | c :: cs, d :: ds => c = d && strStartsWith cs ds

/-- `endsWith` on char lists. -/
def strEndsWith (s suffixChars : LC) : Bool :=
  strStartsWith s.reverse suffixChars.reverse

/-- node `path.basename`: the part after the last slash. -/
def basenameOf (s : LC) : LC :=
  (s.reverse.takeWhile (fun c => c ≠ '/')).reverse

/-- node `path.basename(p, ext)`.  When the whole path equals `ext` node
early-outs and returns the empty string (`if (suffix === path) return ''`);
otherwise the extension logic runs only for a non-empty `ext` no longer than
the path: a trailing `ext` is removed from the basename, except when the
extension match consumes the entire basename (a name right after a
separator, e.g. `basename('a/.html', '.html') = '.html'`), which node keeps
whole. -/
def basenameDropExt (p ext : LC) : LC :=
  if ext ≠ [] ∧ ext.length ≤ p.length then
    if p = ext then []
    else
      let b := basenameOf p
      if b ≠ ext ∧ strEndsWith b ext then b.take (b.length - ext.length) else b
  else basenameOf p

/-- node `path.extname` followed by `toLowerCase`: the suffix of the basename
from its last dot, empty for dotfiles and names without a dot. -/
def extnameLower (s : LC) : LC :=
  let b := basenameOf s
  let afterDotRev := b.reverse.takeWhile (fun c => c ≠ '.')
  if b.length - 1 ≤ afterDotRev.length then []
  else ('.' :: afterDotRev.reverse).map Char.toLower

-- ======================================================================
-- Retry/backoff wrapper: safeAxiosCall (src/unnamed/part_000, lines 126-146)
-- ======================================================================

/-- Outcome of one invocation of the wrapped axios call: a successful
response, an HTTP 429 rate-limit error, or any other error. -/
inductive CallOutcome (ε α : Type) where
  | success : α → CallOutcome ε α
  | rateLimited : CallOutcome ε α
  | failed : ε → CallOutcome ε α
deriving DecidableEq

/-- How `safeAxiosCall` terminates: a normal return carrying a response, a
thrown (propagated) error, or the JavaScript function falling off the end of
its `for` loop and returning `undefined`. -/
inductive CallResult (ε α : Type) where
  | returned : α → CallResult ε α
  | threw : ε → CallResult ε α
  | returnedUndefined : CallResult ε α
deriving DecidableEq

/-- Full observable behaviour of one `safeAxiosCall` run: its result, the
sequence of `delay` waits (in ms, in order), and how many times the wrapped
call was invoked. -/
structure RetryTrace (ε α : Type) where
  result : CallResult ε α
  waits : List Nat
  attempts : Nat
deriving DecidableEq

/-- The loop of `safeAxiosCall`, translated with `fuel = retries - i`
(so `fuel = 0` is loop exit and `fuel = 1` means `i = retries - 1`, the last
attempt).  `call i` is the outcome of the wrapped call on attempt `i`. -/
def safeAxiosCallLoop (call : Nat → CallOutcome ε α) :
    Nat → Nat → List Nat → Nat → RetryTrace ε α
  | 0, _, waits, attempts => ⟨.returnedUndefined, waits, attempts⟩
  | fuel + 1, i, waits, attempts =>
    match call i with
    | .success v => ⟨.returned v, waits, attempts + 1⟩
    | .rateLimited =>
      -- waitTime = Math.pow(2, i) * 1000, then continue
      safeAxiosCallLoop call fuel (i + 1) (waits ++ [2 ^ i * 1000]) (attempts + 1)
    | .failed e =>
      if fuel = 0 then
        -- i === retries - 1: last attempt, throw error
        ⟨.threw e, waits, attempts + 1⟩
      else
        -- otherwise wait 1000ms and retry
        safeAxiosCallLoop call fuel (i + 1) (waits ++ [1000]) (attempts + 1)

/-- `safeAxiosCall(axiosCall)` with the default `retries = 3`. -/
def safeAxiosCall (call : Nat → CallOutcome ε α) : RetryTrace ε α :=
  safeAxiosCallLoop call 3 0 [] 0

theorem safeAxiosCallLoop_zero (call : Nat → CallOutcome ε α) (i : Nat)
    (waits : List Nat) (attempts : Nat) :
    safeAxiosCallLoop call 0 i waits attempts = ⟨.returnedUndefined, waits, attempts⟩ := rfl

/-- A concrete all-rate-limited run used below. -/
def allRateLimited : Nat → CallOutcome Nat Nat := fun _ => CallOutcome.rateLimited

/-- A concrete always-failing run used below. -/
def allFailed : Nat → CallOutcome Nat Nat := fun _ => CallOutcome.failed 7

/-- C3 counterexample: when every one of the three attempts is rate limited
(HTTP 429), `safeAxiosCall` does not propagate any failure — the JavaScript
`for` loop ends and the function returns `undefined` normally, after waiting
1000, 2000 and 4000 ms.  This refutes the clause that on exhausting all
attempts the wrapper always propagates the final failure to the caller. -/
theorem safeAxiosCall_swallows_rate_limit :
    safeAxiosCall allRateLimited =
      ⟨CallResult.returnedUndefined, [1000, 2000, 4000], 3⟩ := by
  decide

/-- C3 (amended): for every outcome sequence, with the default budget of 3:
the wrapped call is attempted at most 3 times; a thrown error is exactly the
failure of the third (last) attempt; a normal return with a value reports the
success of the last attempt made; the `undefined` return happens only when
the last attempt was rate limited and no attempt succeeded; and every
recorded wait is `2^i * 1000` ms after a rate limit on attempt `i` and a flat
1000 ms after any other failure. -/
theorem safeAxiosCall_policy (call : Nat → CallOutcome ε α) :
    (safeAxiosCall call).attempts ≤ 3
    ∧ (∀ e, (safeAxiosCall call).result = CallResult.threw e →
        (safeAxiosCall call).attempts = 3 ∧ call 2 = CallOutcome.failed e)
    ∧ (∀ v, (safeAxiosCall call).result = CallResult.returned v →
        call ((safeAxiosCall call).attempts - 1) = CallOutcome.success v)
    ∧ ((safeAxiosCall call).result = CallResult.returnedUndefined →
        call 2 = CallOutcome.rateLimited
        ∧ (∀ v, call 0 ≠ CallOutcome.success v)
        ∧ (∀ v, call 1 ≠ CallOutcome.success v))
    ∧ (∀ j, j < (safeAxiosCall call).waits.length →
        (call j = CallOutcome.rateLimited →
          (safeAxiosCall call).waits.getD j 0 = 2 ^ j * 1000)
        ∧ (∀ e, call j = CallOutcome.failed e →
          (safeAxiosCall call).waits.getD j 0 = 1000)) := by
  rcases h0 : call 0 with v0 | _ | e0 <;>
    rcases h1 : call 1 with v1 | _ | e1 <;>
      rcases h2 : call 2 with v2 | _ | e2 <;>
        simp [safeAxiosCall, safeAxiosCallLoop, h0, h1, h2] <;>
          first
            | rfl
            | (intro j hj
               interval_cases j <;> simp [h0, h1, h2])

/-- Witness for `safeAxiosCall_policy` at a concrete always-failing call:
the bound on attempts holds and the propagated error is the third failure. -/
theorem safeAxiosCall_policy_witness :
    (safeAxiosCall allFailed).attempts ≤ 3
    ∧ (safeAxiosCall allFailed).attempts = 3
    ∧ allFailed 2 = CallOutcome.failed 7 :=
  ⟨(safeAxiosCall_policy allFailed).1,
    ((safeAxiosCall_policy allFailed).2.1 7 (by decide)).1,
    ((safeAxiosCall_policy allFailed).2.1 7 (by decide)).2⟩

-- ======================================================================
-- Remote page reconciliation (src/unnamed/part_000, lines 149-238)
-- ======================================================================

/-- A remote Confluence page: store-assigned id, title (unique per space),
store-owned version counter and storage-format body. -/
structure RemotePage where
  id : Nat
  title : String
  version : Nat
  body : String
deriving DecidableEq

/-- The remote space: its pages plus the next id the store will assign. -/
structure Space where
  pages : List RemotePage
  nextId : Nat
deriving DecidableEq

/-- Which branch `createOrUpdatePage` took. -/
inductive PageAction where
  | created
  | updated
deriving DecidableEq

/-- Generic model of a REST `PUT` against a collection keyed by id: the first
record whose id matches is rewritten by `f`, everything else is untouched. -/
def putById (idOf : α → Nat) (f : α → α) : List α → Nat → List α
  | [], _ => []
  | x :: xs, pid => if idOf x = pid then f x :: xs else x :: putById idOf f xs pid

/-- `GET /rest/api/content?title=...&spaceKey=...`: the store returns the
pages of this space with exactly this title; the client takes
`response.data.results[0] || null`. -/
def getPageByTitle (st : Space) (title : String) : Option RemotePage :=
  st.pages.find? (fun p => p.title == title)

/-- `createOrUpdatePage({title, htmlContent, parentId})` in normal mode:
search by title; if found, `PUT` the found id with `version.number + 1` and
the new body; otherwise `POST` a new page (version 1, fresh id).  Returns the
updated store, the page id handed back to the caller, and the branch taken. -/
def createOrUpdatePage (st : Space) (title htmlContent : String) :
    Space × Nat × PageAction :=
  match getPageByTitle st title with
  | some existingPage =>
    (⟨putById (fun p => p.id)
        (fun p => ⟨p.id, title, existingPage.version + 1, htmlContent⟩)
        st.pages existingPage.id,
      st.nextId⟩,
     existingPage.id, .updated)
  | none =>
    (⟨st.pages ++ [⟨st.nextId, title, 1, htmlContent⟩], st.nextId + 1⟩,
     st.nextId, .created)

/-- Look a page up by id (used to state version facts). -/
def pageById (st : Space) (pid : Nat) : Option RemotePage :=
  st.pages.find? (fun p => p.id == pid)

/-- Store invariants guaranteed by Confluence: ids are store-assigned below
`nextId` and pairwise distinct, titles are unique within the space. -/
def SpaceWF (st : Space) : Prop :=
  (∀ p ∈ st.pages, p.id < st.nextId)
  ∧ (st.pages.map (fun p => p.id)).Nodup
  ∧ (st.pages.map (fun p => p.title)).Nodup

theorem putById_map (idOf : α → Nat) (f : α → α) (g : α → β) (l : List α) (pid : Nat)
    (hg : ∀ x ∈ l, idOf x = pid → g (f x) = g x) :
    (putById idOf f l pid).map g = l.map g := by
  induction l with
  | nil => rfl
  | cons x xs ih =>
    by_cases hx : idOf x = pid
    · simp [putById, hx, hg x (by simp) hx]
    · simp only [putById, if_neg hx, List.map_cons]
      rw [ih (fun y hy => hg y (by simp [hy]))]

theorem putById_countP (idOf : α → Nat) (f : α → α) (q : α → Bool) (l : List α) (pid : Nat)
    (hq : ∀ x ∈ l, idOf x = pid → q (f x) = q x) :
    (putById idOf f l pid).countP q = l.countP q := by
  induction l with
  | nil => rfl
  | cons x xs ih =>
    by_cases hx : idOf x = pid
    · simp [putById, hx, List.countP_cons, hq x (by simp) hx]
    · simp only [putById, if_neg hx, List.countP_cons]
      rw [ih (fun y hy => hq y (by simp [hy]))]

theorem putById_find? (idOf : α → Nat) (f : α → α) (q : α → Bool) (l : List α) (a : α)
    (hnd : (l.map idOf).Nodup) (hfind : l.find? q = some a) (hfa : q (f a) = true) :
    (putById idOf f l (idOf a)).find? q = some (f a) := by
  induction l with
  | nil => simp at hfind
  | cons x xs ih =>
    rcases hqx : q x with _ | _
    · have hfind' : xs.find? q = some a := by
        rw [List.find?_cons, hqx] at hfind; exact hfind
      have hmem : a ∈ xs := List.mem_of_find?_eq_some hfind'
      have hne : idOf x ≠ idOf a := by
        intro he
        have : idOf a ∈ xs.map idOf := List.mem_map_of_mem _ hmem
        rw [List.map_cons, List.nodup_cons] at hnd
        exact hnd.1 (he ▸ this)
      simp only [putById, if_neg hne]
      rw [List.find?_cons, hqx]
      exact ih (by rw [List.map_cons, List.nodup_cons] at hnd; exact hnd.2) hfind'
    · have ha : a = x := by
        rw [List.find?_cons, hqx] at hfind
        exact (Option.some_inj.mp hfind).symm
      subst ha
      simp [putById, List.find?_cons, hfa]

theorem putById_find?_id (idOf : α → Nat) (f : α → α) (l : List α) (a : α)
    (hid : idOf (f a) = idOf a)
    (hnd : (l.map idOf).Nodup) (hmem : a ∈ l) :
    (putById idOf f l (idOf a)).find? (fun x => idOf x == idOf a) = some (f a) := by
  induction l with
  | nil => simp at hmem
  | cons x xs ih =>
    rw [List.map_cons, List.nodup_cons] at hnd
    by_cases hx : idOf x = idOf a
    · have hxa : x = a := by
        rcases List.mem_cons.mp hmem with h | h
        · exact h.symm ▸ rfl
        · exact absurd (hx ▸ List.mem_map_of_mem _ h) hnd.1
      subst hxa
      simp [putById, List.find?_cons, hid]
    · have hmem' : a ∈ xs := by
        rcases List.mem_cons.mp hmem with h | h
        · exact absurd (h ▸ rfl) hx
        · exact h
      simp only [putById, if_neg hx]
      rw [List.find?_cons]
      have : (idOf x == idOf a) = false := by simp [hx]
      rw [this]
      exact ih hnd.2 hmem'

theorem find?_by_id_of_mem (idOf : α → Nat) (l : List α) (a : α)
    (hnd : (l.map idOf).Nodup) (hmem : a ∈ l) :
    l.find? (fun x => idOf x == idOf a) = some a := by
  induction l with
  | nil => simp at hmem
  | cons x xs ih =>
    rw [List.map_cons, List.nodup_cons] at hnd
    by_cases hx : idOf x = idOf a
    · have hxa : x = a := by
        rcases List.mem_cons.mp hmem with h | h
        · exact h.symm ▸ rfl
        · exact absurd (hx ▸ List.mem_map_of_mem _ h) hnd.1
      subst hxa
      simp [List.find?_cons]
    · have hmem' : a ∈ xs := by
        rcases List.mem_cons.mp hmem with h | h
        · exact absurd (h ▸ rfl) hx
        · exact h
      rw [List.find?_cons]
      have : (idOf x == idOf a) = false := by simp [hx]
      rw [this]
      exact ih hnd.2 hmem'

/-- C1: reconciling the same title twice against one namespace (with the
Confluence invariants: unique ids below `nextId`, unique titles) leaves
exactly one page with that title; the second call finds the page the first
call produced, takes the update branch with the same id, and bumps that
page's version counter by exactly one; and whenever a page with the title
already exists, `createOrUpdatePage` never takes the create branch. -/
theorem createOrUpdatePage_idem (st : Space) (title body : String) (hwf : SpaceWF st) :
    let r1 := createOrUpdatePage st title body
    let r2 := createOrUpdatePage r1.1 title body
    r2.1.pages.countP (fun p => p.title == title) = 1
    ∧ r2.2.2 = PageAction.updated
    ∧ r2.2.1 = r1.2.1
    ∧ (pageById r2.1 r1.2.1).map (fun p => p.version)
        = ((pageById r1.1 r1.2.1).map (fun p => p.version)).map (fun v => v + 1)
    ∧ ((∃ p ∈ st.pages, p.title = title) → r1.2.2 = PageAction.updated) := by
  intro r1 r2
  obtain ⟨hlt, hids, htitles⟩ := hwf
  have hcount_le : st.pages.countP (fun p => p.title == title) ≤ 1 := by
    have h1 : st.pages.countP (fun p => p.title == title)
        = (st.pages.map (fun p => p.title)).countP (fun t => t == title) := by
      rw [List.countP_map]; rfl
    rw [h1, ← List.count_eq_countP]
    exact List.nodup_iff_count_le_one.mp htitles title
  rcases hfind : st.pages.find? (fun p => p.title == title) with _ | p
  · -- create branch: no page with this title yet
    have hnone : ∀ x ∈ st.pages, ¬ ((fun p => p.title == title) x = true) :=
      fun x hx => by simpa using List.find?_eq_none.mp hfind x hx
    have h1 : r1 = (⟨st.pages ++ [(⟨st.nextId, title, 1, body⟩ : RemotePage)], st.nextId + 1⟩,
        st.nextId, PageAction.created) := by
      simp only [r1, createOrUpdatePage, getPageByTitle, hfind]
    have hnew : ({ id := st.nextId, title := title, version := 1, body := body }
        : RemotePage) ∈ st.pages ++ [(⟨st.nextId, title, 1, body⟩ : RemotePage)] := by simp
    have hids1 : ((st.pages ++ [(⟨st.nextId, title, 1, body⟩ : RemotePage)]).map (fun p => p.id)).Nodup := by
      rw [List.map_append]
      refine List.Nodup.append hids (by simp) ?_
      intro a ha
      simp only [List.map_cons, List.map_nil, List.mem_singleton]
      obtain ⟨x, hx, rfl⟩ := List.mem_map.mp ha
      exact fun he => absurd (he ▸ hlt x hx) (lt_irrefl _)
    have hfind1 : (st.pages ++ [(⟨st.nextId, title, 1, body⟩ : RemotePage)]).find?
        (fun p => p.title == title) = some ⟨st.nextId, title, 1, body⟩ := by
      rw [List.find?_append, hfind]
      simp [List.find?_cons]
    have h2 : r2 = (⟨putById (fun p => p.id)
        (fun q => ⟨q.id, title, 1 + 1, body⟩)
        (st.pages ++ [(⟨st.nextId, title, 1, body⟩ : RemotePage)]) st.nextId,
        st.nextId + 1⟩, st.nextId, PageAction.updated) := by
      simp only [r2, h1, createOrUpdatePage, getPageByTitle, hfind1]
    refine ⟨?_, ?_, ?_, ?_, ?_⟩
    · rw [h2]
      have hc : (putById (fun p => p.id) (fun q => ⟨q.id, title, 1 + 1, body⟩)
          (st.pages ++ [(⟨st.nextId, title, 1, body⟩ : RemotePage)]) st.nextId).countP
            (fun p => p.title == title)
          = (st.pages ++ [(⟨st.nextId, title, 1, body⟩ : RemotePage)]).countP
            (fun p => p.title == title) := by
        refine putById_countP _ _ _ _ _ ?_
        intro x hx hxid
        have hxnew : x = ⟨st.nextId, title, 1, body⟩ := by
          rcases List.mem_append.mp hx with h | h
          · exact absurd (hxid ▸ hlt x h) (lt_irrefl _)
          · simpa using h
        subst hxnew; rfl
      rw [hc, List.countP_append]
      have hz : st.pages.countP (fun p => p.title == title) = 0 :=
        List.countP_eq_zero.mpr hnone
      simp [hz, List.countP_cons]
    · rw [h2]
    · rw [h2, h1]
    · rw [h2, h1]
      have hb1 : pageById ⟨st.pages ++ [(⟨st.nextId, title, 1, body⟩ : RemotePage)], st.nextId + 1⟩
          st.nextId = some ⟨st.nextId, title, 1, body⟩ := by
        have := find?_by_id_of_mem (fun p => p.id)
          (st.pages ++ [(⟨st.nextId, title, 1, body⟩ : RemotePage)]) ⟨st.nextId, title, 1, body⟩ hids1 hnew
        simpa [pageById] using this
      have hb2 : pageById ⟨putById (fun p => p.id)
          (fun q => ⟨q.id, title, 1 + 1, body⟩)
          (st.pages ++ [(⟨st.nextId, title, 1, body⟩ : RemotePage)]) st.nextId, st.nextId + 1⟩
          st.nextId = some ⟨st.nextId, title, 1 + 1, body⟩ := by
        have := putById_find?_id (fun p => p.id)
          (fun q => ⟨q.id, title, 1 + 1, body⟩)
          (st.pages ++ [(⟨st.nextId, title, 1, body⟩ : RemotePage)]) ⟨st.nextId, title, 1, body⟩
          rfl hids1 hnew
        simpa [pageById] using this
      rw [hb1, hb2]; rfl
    · rintro ⟨p, hp, hpt⟩
      exact absurd (by simpa using hpt) (by simpa using hnone p hp)
  · -- update branch: a page with this title exists
    have hpmem : p ∈ st.pages := List.mem_of_find?_eq_some hfind
    have hptitle : p.title = title := by simpa using List.find?_some hfind
    have h1 : r1 = (⟨putById (fun p => p.id)
        (fun q => ⟨q.id, title, p.version + 1, body⟩) st.pages p.id, st.nextId⟩,
        p.id, PageAction.updated) := by
      simp only [r1, createOrUpdatePage, getPageByTitle, hfind]
    have hids1 : ((putById (fun p => p.id)
        (fun q => ⟨q.id, title, p.version + 1, body⟩) st.pages p.id).map
          (fun p => p.id)).Nodup := by
      rw [putById_map (fun p => p.id)
        (fun q => ⟨q.id, title, p.version + 1, body⟩)
        (fun p => p.id) st.pages p.id (fun x _ _ => rfl)]
      exact hids
    have hfind1 : (putById (fun p => p.id)
        (fun q => ⟨q.id, title, p.version + 1, body⟩) st.pages p.id).find?
          (fun q => q.title == title) = some ⟨p.id, title, p.version + 1, body⟩ := by
      have := putById_find? (fun p => p.id)
        (fun q => ⟨q.id, title, p.version + 1, body⟩)
        (fun q => q.title == title) st.pages p hids hfind (by simp)
      simpa using this
    have hmem1 : ({ id := p.id, title := title, version := p.version + 1, body := body }
        : RemotePage) ∈ putById (fun p => p.id)
          (fun q => ⟨q.id, title, p.version + 1, body⟩) st.pages p.id :=
      List.mem_of_find?_eq_some hfind1
    have h2 : r2 = (⟨putById (fun p => p.id)
        (fun q => ⟨q.id, title, p.version + 1 + 1, body⟩)
        (putById (fun p => p.id) (fun q => ⟨q.id, title, p.version + 1, body⟩)
          st.pages p.id) p.id, st.nextId⟩, p.id, PageAction.updated) := by
      simp only [r2, h1, createOrUpdatePage, getPageByTitle, hfind1]
    have hcount1 : (putById (fun p => p.id)
        (fun q => ⟨q.id, title, p.version + 1, body⟩) st.pages p.id).countP
          (fun q => q.title == title)
        = st.pages.countP (fun q => q.title == title) := by
      refine putById_countP _ _ _ _ _ ?_
      intro x hx hxid
      have hxp : x = p := List.inj_on_of_nodup_map hids hx hpmem hxid
      subst hxp
      simp [hptitle]
    have hcount_eq : st.pages.countP (fun q => q.title == title) = 1 := by
      refine Nat.le_antisymm hcount_le ?_
      exact List.countP_pos_iff.mpr ⟨p, hpmem, by simp [hptitle]⟩
    refine ⟨?_, ?_, ?_, ?_, ?_⟩
    · rw [h2]
      have hc2 : (putById (fun p => p.id)
          (fun q => ⟨q.id, title, p.version + 1 + 1, body⟩)
          (putById (fun p => p.id) (fun q => ⟨q.id, title, p.version + 1, body⟩)
            st.pages p.id) p.id).countP (fun q => q.title == title)
          = (putById (fun p => p.id)
            (fun q => ⟨q.id, title, p.version + 1, body⟩) st.pages p.id).countP
              (fun q => q.title == title) := by
        refine putById_countP _ _ _ _ _ ?_
        intro x hx hxid
        have hxp : x = ⟨p.id, title, p.version + 1, body⟩ :=
          List.inj_on_of_nodup_map hids1 hx hmem1 hxid
        subst hxp
        rfl
      rw [hc2, hcount1, hcount_eq]
    · rw [h2]
    · rw [h2, h1]
    · rw [h2, h1]
      have hb1 : pageById ⟨putById (fun p => p.id)
          (fun q => ⟨q.id, title, p.version + 1, body⟩) st.pages p.id, st.nextId⟩
          p.id = some ⟨p.id, title, p.version + 1, body⟩ := by
        have := putById_find?_id (fun p => p.id)
          (fun q => ⟨q.id, title, p.version + 1, body⟩) st.pages p rfl hids hpmem
        simpa [pageById] using this
      have hb2 : pageById ⟨putById (fun p => p.id)
          (fun q => ⟨q.id, title, p.version + 1 + 1, body⟩)
          (putById (fun p => p.id) (fun q => ⟨q.id, title, p.version + 1, body⟩)
            st.pages p.id) p.id, st.nextId⟩
          p.id = some ⟨p.id, title, p.version + 1 + 1, body⟩ := by
        have := putById_find?_id (fun p => p.id)
          (fun q => ⟨q.id, title, p.version + 1 + 1, body⟩)
          (putById (fun p => p.id) (fun q => ⟨q.id, title, p.version + 1, body⟩)
            st.pages p.id) ⟨p.id, title, p.version + 1, body⟩ rfl hids1 hmem1
        simpa [pageById] using this
      rw [hb1, hb2]; rfl
    · intro _
      rw [h1]

/-- Witness for `createOrUpdatePage_idem`: the empty space satisfies the
invariants, and there the two calls create then update page 0 to version 2. -/
theorem createOrUpdatePage_idem_witness :
    (createOrUpdatePage (createOrUpdatePage ⟨[], 0⟩ "T" "B").1 "T" "B").1.pages.countP
      (fun p => p.title == "T") = 1
    ∧ (createOrUpdatePage (createOrUpdatePage ⟨[], 0⟩ "T" "B").1 "T" "B").2.2
      = PageAction.updated := by
  have h := createOrUpdatePage_idem ⟨[], 0⟩ "T" "B"
    ⟨by simp, by simp, by simp⟩
  exact ⟨h.1, h.2.1⟩

-- ======================================================================
-- Attachment upsert: uploadAttachment (src/unnamed/part_000, lines 259-365)
-- ======================================================================

/-- A remote attachment of one page: store-assigned id, title (= filename)
and binary content (modelled as a string). -/
structure RemoteAttachment where
  id : Nat
  title : String
  content : String
deriving DecidableEq

/-- The attachment collection of one remote page. -/
structure PageAttachments where
  atts : List RemoteAttachment
  nextId : Nat
deriving DecidableEq

/-- Which branch `uploadAttachment` took. -/
inductive AttachmentAction where
  | createdNew
  | updatedExisting
deriving DecidableEq

/-- `getExistingAttachment(pageId, fileName)`:
`GET /child/attachment?filename=...` then
`response.data.results.find(att => att.title === fileName)`. -/
def getExistingAttachment (pa : PageAttachments) (fileName : String) :
    Option RemoteAttachment :=
  pa.atts.find? (fun att => att.title == fileName)

/-- `uploadAttachment(pageId, filePath, fileName)` in normal mode: query the
existing attachments for this filename; if found, `POST .../{id}/data`
replacing that attachment's binary content (`updateAttachment`); otherwise
`POST` a brand-new attachment. -/
def uploadAttachment (pa : PageAttachments) (fileName content : String) :
    PageAttachments × AttachmentAction :=
  match getExistingAttachment pa fileName with
  | some existingAttachment =>
    (⟨putById (fun a => a.id) (fun a => ⟨a.id, a.title, content⟩)
        pa.atts existingAttachment.id, pa.nextId⟩, .updatedExisting)
  | none =>
    (⟨pa.atts ++ [⟨pa.nextId, fileName, content⟩], pa.nextId + 1⟩, .createdNew)

/-- Look an attachment up by id. -/
def attachmentById (pa : PageAttachments) (aid : Nat) : Option RemoteAttachment :=
  pa.atts.find? (fun a => a.id == aid)

/-- Invariants guaranteed by Confluence for a page's attachments: ids are
store-assigned below `nextId` and pairwise distinct, filenames unique. -/
def AttachmentsWF (pa : PageAttachments) : Prop :=
  (∀ a ∈ pa.atts, a.id < pa.nextId)
  ∧ (pa.atts.map (fun a => a.id)).Nodup
  ∧ (pa.atts.map (fun a => a.title)).Nodup

/-- C2: uploading the same filename twice to one page (under the Confluence
invariants) leaves exactly one attachment record with that filename; the
second upload takes the binary-content-replace branch, never the create
branch; after both uploads the surviving record holds the content of the
second upload; and whenever an attachment with the filename already exists,
`uploadAttachment` never takes the create branch. -/
theorem uploadAttachment_upsert (pa : PageAttachments)
    (fileName c1 c2 : String) (hwf : AttachmentsWF pa) :
    let r1 := uploadAttachment pa fileName c1
    let r2 := uploadAttachment r1.1 fileName c2
    r2.1.atts.countP (fun a => a.title == fileName) = 1
    ∧ r2.2 = AttachmentAction.updatedExisting
    ∧ (∃ a ∈ r2.1.atts, a.title = fileName ∧ a.content = c2)
    ∧ ((∃ a ∈ pa.atts, a.title = fileName) → r1.2 = AttachmentAction.updatedExisting) := by
  intro r1 r2
  obtain ⟨hlt, hids, htitles⟩ := hwf
  have hcount_le : pa.atts.countP (fun a => a.title == fileName) ≤ 1 := by
    have h1 : pa.atts.countP (fun a => a.title == fileName)
        = (pa.atts.map (fun a => a.title)).countP (fun t => t == fileName) := by
      rw [List.countP_map]; rfl
    rw [h1, ← List.count_eq_countP]
    exact List.nodup_iff_count_le_one.mp htitles fileName
  rcases hfind : pa.atts.find? (fun a => a.title == fileName) with _ | a
  · -- no attachment with this filename yet: first upload creates one
    have hnone : ∀ x ∈ pa.atts, ¬ ((fun a => a.title == fileName) x = true) :=
      fun x hx => by simpa using List.find?_eq_none.mp hfind x hx
    have h1 : r1 = (⟨pa.atts ++ [(⟨pa.nextId, fileName, c1⟩ : RemoteAttachment)],
        pa.nextId + 1⟩, AttachmentAction.createdNew) := by
      simp only [r1, uploadAttachment, getExistingAttachment, hfind]
    have hnew : ({ id := pa.nextId, title := fileName, content := c1 }
        : RemoteAttachment) ∈ pa.atts ++ [(⟨pa.nextId, fileName, c1⟩ : RemoteAttachment)] := by
      simp
    have hids1 : ((pa.atts ++ [(⟨pa.nextId, fileName, c1⟩ : RemoteAttachment)]).map
        (fun a => a.id)).Nodup := by
      rw [List.map_append]
      refine List.Nodup.append hids (by simp) ?_
      intro x hx
      simp only [List.map_cons, List.map_nil, List.mem_singleton]
      obtain ⟨y, hy, rfl⟩ := List.mem_map.mp hx
      exact fun he => absurd (he ▸ hlt y hy) (lt_irrefl _)
    have hfind1 : (pa.atts ++ [(⟨pa.nextId, fileName, c1⟩ : RemoteAttachment)]).find?
        (fun a => a.title == fileName) = some ⟨pa.nextId, fileName, c1⟩ := by
      rw [List.find?_append, hfind]
      simp [List.find?_cons]
    have h2 : r2 = (⟨putById (fun a => a.id) (fun a => ⟨a.id, a.title, c2⟩)
        (pa.atts ++ [(⟨pa.nextId, fileName, c1⟩ : RemoteAttachment)]) pa.nextId,
        pa.nextId + 1⟩, AttachmentAction.updatedExisting) := by
      simp only [r2, h1, uploadAttachment, getExistingAttachment, hfind1]
    refine ⟨?_, ?_, ?_, ?_⟩
    · rw [h2]
      have hc : (putById (fun a => a.id) (fun a => ⟨a.id, a.title, c2⟩)
          (pa.atts ++ [(⟨pa.nextId, fileName, c1⟩ : RemoteAttachment)]) pa.nextId).countP
            (fun a => a.title == fileName)
          = (pa.atts ++ [(⟨pa.nextId, fileName, c1⟩ : RemoteAttachment)]).countP
            (fun a => a.title == fileName) := by
        exact putById_countP _ _ _ _ _ (fun x _ _ => rfl)
      rw [hc, List.countP_append]
      have hz : pa.atts.countP (fun a => a.title == fileName) = 0 :=
        List.countP_eq_zero.mpr hnone
      simp [hz, List.countP_cons]
    · rw [h2]
    · rw [h2]
      refine ⟨⟨pa.nextId, fileName, c2⟩, ?_, rfl, rfl⟩
      have := putById_find?_id (fun a => a.id) (fun a => ⟨a.id, a.title, c2⟩)
        (pa.atts ++ [(⟨pa.nextId, fileName, c1⟩ : RemoteAttachment)])
        ⟨pa.nextId, fileName, c1⟩ rfl hids1 hnew
      exact List.mem_of_find?_eq_some this
    · rintro ⟨x, hx, hxt⟩
      exact absurd (by simpa using hxt) (by simpa using hnone x hx)
  · -- an attachment with this filename exists: both uploads replace content
    have hamem : a ∈ pa.atts := List.mem_of_find?_eq_some hfind
    have hatitle : a.title = fileName := by simpa using List.find?_some hfind
    have h1 : r1 = (⟨putById (fun x => x.id) (fun x => ⟨x.id, x.title, c1⟩)
        pa.atts a.id, pa.nextId⟩, AttachmentAction.updatedExisting) := by
      simp only [r1, uploadAttachment, getExistingAttachment, hfind]
    have hids1 : ((putById (fun x => x.id) (fun x => ⟨x.id, x.title, c1⟩)
        pa.atts a.id).map (fun x => x.id)).Nodup := by
      rw [putById_map (fun x => x.id) (fun x => ⟨x.id, x.title, c1⟩)
        (fun x => x.id) pa.atts a.id (fun x _ _ => rfl)]
      exact hids
    have hfind1 : (putById (fun x => x.id) (fun x => ⟨x.id, x.title, c1⟩)
        pa.atts a.id).find? (fun x => x.title == fileName)
        = some ⟨a.id, a.title, c1⟩ := by
      have := putById_find? (fun x => x.id) (fun x => ⟨x.id, x.title, c1⟩)
        (fun x => x.title == fileName) pa.atts a hids hfind (by simp [hatitle])
      simpa using this
    have hmem1 : ({ id := a.id, title := a.title, content := c1 } : RemoteAttachment)
        ∈ putById (fun x => x.id) (fun x => ⟨x.id, x.title, c1⟩) pa.atts a.id :=
      List.mem_of_find?_eq_some hfind1
    have h2 : r2 = (⟨putById (fun x => x.id) (fun x => ⟨x.id, x.title, c2⟩)
        (putById (fun x => x.id) (fun x => ⟨x.id, x.title, c1⟩) pa.atts a.id) a.id,
        pa.nextId⟩, AttachmentAction.updatedExisting) := by
      simp only [r2, h1, uploadAttachment, getExistingAttachment, hfind1]
    refine ⟨?_, ?_, ?_, ?_⟩
    · rw [h2]
      have hc2 : (putById (fun x => x.id) (fun x => ⟨x.id, x.title, c2⟩)
          (putById (fun x => x.id) (fun x => ⟨x.id, x.title, c1⟩) pa.atts a.id) a.id).countP
            (fun x => x.title == fileName)
          = (putById (fun x => x.id) (fun x => ⟨x.id, x.title, c1⟩) pa.atts a.id).countP
            (fun x => x.title == fileName) :=
        putById_countP _ _ _ _ _ (fun x _ _ => rfl)
      have hc1 : (putById (fun x => x.id) (fun x => ⟨x.id, x.title, c1⟩) pa.atts a.id).countP
            (fun x => x.title == fileName)
          = pa.atts.countP (fun x => x.title == fileName) :=
        putById_countP _ _ _ _ _ (fun x _ _ => rfl)
      rw [hc2, hc1]
      refine Nat.le_antisymm hcount_le ?_
      exact List.countP_pos_iff.mpr ⟨a, hamem, by simp [hatitle]⟩
    · rw [h2]
    · rw [h2]
      refine ⟨⟨a.id, a.title, c2⟩, ?_, hatitle, rfl⟩
      have := putById_find?_id (fun x => x.id) (fun x => ⟨x.id, x.title, c2⟩)
        (putById (fun x => x.id) (fun x => ⟨x.id, x.title, c1⟩) pa.atts a.id)
        ⟨a.id, a.title, c1⟩ rfl hids1 hmem1
      exact List.mem_of_find?_eq_some this
    · intro _
      rw [h1]

/-- Witness for `uploadAttachment_upsert`: the empty attachment collection
satisfies the invariants; uploading `report.pdf` twice there leaves exactly
one record, and the second upload takes the update branch. -/
theorem uploadAttachment_upsert_witness :
    (uploadAttachment (uploadAttachment ⟨[], 0⟩ "report.pdf" "v1").1
        "report.pdf" "v2").1.atts.countP (fun a => a.title == "report.pdf") = 1
    ∧ (uploadAttachment (uploadAttachment ⟨[], 0⟩ "report.pdf" "v1").1
        "report.pdf" "v2").2 = AttachmentAction.updatedExisting := by
  have h := uploadAttachment_upsert ⟨[], 0⟩ "report.pdf" "v1" "v2"
    ⟨by simp, by simp, by simp⟩
  exact ⟨h.1, h.2.1⟩

-- ======================================================================
-- Front-matter extraction (src/unnamed/part_002, lines 265-282)
-- ======================================================================

/-- Index of the first occurrence of `---` in a char list, if any. -/
def findTriple : LC → Option Nat
  | '-' :: '-' :: '-' :: _ => some 0
  | _ :: cs => (findTriple cs).map (fun n => n + 1)
  | [] => none

/-- Length of the leading whitespace run. -/
def countLeadingWs (s : LC) : Nat := (s.takeWhile wsChar).length

/-- The match of the anchored regex
`--- \s* ( [\s\S]*? ) \s* --- \s*` against the document head: `none` when the
document does not open with `---` or has no second `---`; otherwise the
captured group (the delimited text with surrounding whitespace absorbed by
the greedy `\s*` runs, the lazy group being minimal) together with the total
length of `match[0]` (through the closing `---` and the whitespace after
it). -/
def findBlock (html : LC) : Option (LC × Nat) :=
  match html with
  | '-' :: '-' :: '-' :: rest =>
    match findTriple rest with
    | none => none
    | some k =>
      some (trimWs (rest.take k), 3 + k + 3 + countLeadingWs (rest.drop (k + 3)))
  | _ => none

/-- Result of `extractFrontMatter`: the parsed metadata (or `null`), the
remaining content, and whether a warning was printed. -/
structure FrontMatterResult (μ : Type) where
  frontMatter : Option μ
  content : LC
  warned : Bool
deriving DecidableEq

/-- `extractFrontMatter(html)`, with `yaml.load` abstracted as a `parse`
oracle that either returns a value or throws.  When the anchored regex does
not match, metadata is `null` and the content is the whole input.  When it
matches, `yaml.load(match[1])` is attempted inside `try`: a throw is caught,
`console.warn` fires and `frontMatter` stays `null`; either way the content
is `html.slice(match[0].length)`. -/
def extractFrontMatter (parse : LC → Except String μ) (html : LC) :
    FrontMatterResult μ :=
  match findBlock html with
  | none => ⟨none, html, false⟩
  | some (grp, len) =>
    match parse grp with
    | .ok fm => ⟨some fm, html.drop len, false⟩
    | .error _ => ⟨none, html.drop len, true⟩

/-- C7: front-matter robustness.  The returned remainder does not depend on
the metadata parse outcome at all; without a leading delimited block the
input is returned whole with `null` metadata; with a block, a successful
parse yields the value and a failing parse yields `null` metadata plus a
warning — and in both cases the same stripped remainder.  The function is
total, so a metadata parse failure never aborts processing. -/
theorem extractFrontMatter_robust (μ : Type) (parseA parseB : LC → Except String μ)
    (html : LC) :
    (extractFrontMatter parseA html).content = (extractFrontMatter parseB html).content
    ∧ (findBlock html = none →
        extractFrontMatter parseA html = ⟨none, html, false⟩)
    ∧ (∀ grp len, findBlock html = some (grp, len) →
        (∀ v, parseA grp = Except.ok v →
          extractFrontMatter parseA html = ⟨some v, html.drop len, false⟩)
        ∧ (∀ e, parseA grp = Except.error e →
          extractFrontMatter parseA html = ⟨none, html.drop len, true⟩)) := by
  refine ⟨?_, ?_, ?_⟩
  · rcases hb : findBlock html with _ | ⟨grp, len⟩
    · simp [extractFrontMatter, hb]
    · rcases ha : parseA grp with e | v <;> rcases hb2 : parseB grp with e2 | v2 <;>
        simp [extractFrontMatter, hb, ha, hb2]
  · intro hb
    simp [extractFrontMatter, hb]
  · intro grp len hb
    constructor
    · intro v hv
      simp [extractFrontMatter, hb, hv]
    · intro e he
      simp [extractFrontMatter, hb, he]

/-- A parse oracle that always throws, standing for `yaml.load` on malformed
metadata. -/
def alwaysThrowYaml : LC → Except String Nat := fun _ => Except.error "bad"

/-- Witness for `extractFrontMatter_robust`: on a document whose leading
block `title: [` is malformed YAML, metadata is `null`, a warning fires, and
the remainder `body` is still returned with the block stripped. -/
theorem extractFrontMatter_robust_witness :
    extractFrontMatter alwaysThrowYaml ("---\ntitle: [\n---\nbody".toList)
      = ⟨none, "body".toList, true⟩ := by
  have h := (extractFrontMatter_robust Nat alwaysThrowYaml alwaysThrowYaml
    ("---\ntitle: [\n---\nbody".toList)).2.2 ("title: [".toList) 17 (by decide)
  have h2 := h.2 "bad" rfl
  rw [h2]
  decide

-- ======================================================================
-- cleanHtml void-tag rewrite (src/unnamed/part_002, lines 293-302)
-- ======================================================================

/-- Consume a case-insensitive occurrence of `pat` (given lowercase) at the
head of `s`; return what follows. -/
def stripCI : LC → LC → Option LC
  | [], s => some s
  | _ :: _, [] => none
  | p :: ps, c :: cs => if c.toLower = p then stripCI ps cs else none

/-- The greedy `[^>]*>` tail of the regex: everything up to the next `>`
(which must exist), returning (the consumed run, the text after `>`). -/
def readAttrs : LC → Option (LC × LC)
  | [] => none
  | c :: cs =>
    if c = '>' then some ([], cs)
    else
      match readAttrs cs with
      | some (run, rest) => some (c :: run, rest)
      | none => none

/-- One attempted match of `<tag(\s[^>]*)?>` (flag `i`) at the head of `s`:
after `<` and the case-insensitive tag name there must be either `>`
directly (empty group) or a whitespace character opening the group followed
by non-`>` characters and `>`.  Returns (the captured group, the rest). -/
def tryMatchVoid (tag : LC) (s : LC) : Option (LC × LC) :=
  match s with
  | '<' :: s1 =>
    match stripCI tag s1 with
    | some ('>' :: rest) => some ([], rest)
    | some (c :: cs) =>
      if wsChar c then
        match readAttrs cs with
        | some (run, rest) => some (c :: run, rest)
        | none => none
      else none
    | some [] => none
    | none => none
  | _ => none

/-- The global left-to-right replace of one tag's regex, with replacement
template `<tag + (attrs ? " " + attrs : "") + " />"` where
`attrs = match[1].trim()`.  `fuel` starts at the text length; every step
consumes at least one character, so the fuel never runs out. -/
def replaceVoidTagAux (tag : LC) : Nat → LC → LC
  | 0, s => s
  | fuel + 1, s =>
    match s with
    | [] => []
    | c :: cs =>
      match tryMatchVoid tag (c :: cs) with
      | some (grp, rest) =>
        let attrs := trimWs grp
        '<' :: tag ++ (if attrs = [] then [] else ' ' :: attrs)
          ++ ' ' :: '/' :: '>' :: replaceVoidTagAux tag fuel rest
      | none => c :: replaceVoidTagAux tag fuel cs

/-- `content.replace(regex, ...)` for one void-element name. -/
def replaceVoidTag (tag s : LC) : LC := replaceVoidTagAux tag s.length s

/-- The fixed void-element list of `cleanHtml`. -/
def selfClosingTags : List LC :=
  ["area".toList, "base".toList, "br".toList, "col".toList, "embed".toList,
   "hr".toList, "img".toList, "input".toList, "link".toList, "meta".toList,
   "source".toList, "track".toList, "wbr".toList]

/-- The `selfClosingTags.forEach(...)` rewrite phase of `cleanHtml`: each
void element's regex replace applied in turn over the whole text. -/
def applySelfClosingTags (html : LC) : LC :=
  selfClosingTags.foldl (fun acc tag => replaceVoidTag tag acc) html

/-- C6: evaluation of the void-tag rewrite of `cleanHtml` at the claim's own
examples.  `<br>` (no attributes) becomes `<br />` — with a space before the
self-close marker, although both the claim and the code's own comment say
the space appears only when attributes are present ( the template hardcodes
a space in ` />`).  And the phase is not a no-op on already-normalized
markup: `<img src="a.png" />` is mangled to `<img src="a.png" / />` because
the regex group `[^>]*` also swallows the existing `/`, so re-normalizing is
not idempotent. -/
theorem cleanHtml_selfClose_divergence :
    applySelfClosingTags ("<br>".toList) = "<br />".toList
    ∧ applySelfClosingTags ("<img src=\"a.png\">".toList) = "<img src=\"a.png\" />".toList
    ∧ applySelfClosingTags ("<img src=\"a.png\" />".toList)
        = "<img src=\"a.png\" / />".toList
    ∧ applySelfClosingTags (applySelfClosingTags ("<br>".toList))
        ≠ applySelfClosingTags ("<br>".toList) := by
  decide

-- ======================================================================
-- Run loop, resume state and index extraction
-- (src/unnamed/part_000, lines 555-737)
-- ======================================================================

/-- One link of `index.html` as cheerio enumerates the `<a>` elements:
the `href` attribute (if present) and the link text. -/
structure IndexLink where
  href : Option LC
  text : LC
deriving DecidableEq

/-- `linkText || path.basename(href, '.html')`: the trimmed link text, or
the basename with `.html` stripped when the text is empty (falsy). -/
def indexEntryTitle (href text : LC) : LC :=
  let t := trimWs text
  if t = [] then basenameDropExt href (".html".toList) else t

/-- `getPageMap()`: over the index links, every `href` ending in `.html` is
entered into the object `pageMap[href] = linkText || basename` — with no
check that the target file exists.  JavaScript object assignment updates an
existing key in place. -/
def objInsert (m : List (LC × LC)) (k v : LC) : List (LC × LC) :=
  match m with
  | [] => [(k, v)]
  | kv :: rest => if kv.1 = k then (k, v) :: rest else kv :: objInsert rest k v

/-- Property lookup on the object model. -/
def objGet (m : List (LC × LC)) (k : LC) : Option LC :=
  (m.find? (fun kv => kv.1 == k)).map (fun kv => kv.2)

/-- One `$('a').each` iteration of `getPageMap`. -/
def pageMapStep (pageMap : List (LC × LC)) (l : IndexLink) : List (LC × LC) :=
  match l.href with
  | some h =>
    if strEndsWith h (".html".toList) then
      objInsert pageMap h (indexEntryTitle h l.text)
    else pageMap
  | none => pageMap

def getPageMap (links : List IndexLink) : List (LC × LC) :=
  links.foldl pageMapStep []

/-- `getHtmlFilesFromIndex()`: starts with `index.html` / `Index Page`, then
appends every link whose `href` ends in `.html` and whose target file
exists on disk, as a (file, title) pair. -/
def getHtmlFilesFromIndex (links : List IndexLink) (fileExists : LC → Bool) :
    List (LC × LC) :=
  ("index.html".toList, "Index Page".toList) ::
    links.filterMap (fun l =>
      match l.href with
      | some h =>
        if strEndsWith h (".html".toList) && fileExists h then
          some (h, indexEntryTitle h l.text)
        else none
      | none => none)

/-- `loadState()`: the persisted transferred list, or empty when `--all` is
given, the state file is absent, or it fails to parse (warn and reset).
`stateFile = none` is an absent file, `some none` an unreadable one. -/
def loadState (ignoreState : Bool) (stateFile : Option (Option (List LC))) :
    List LC :=
  match ignoreState, stateFile with
  | false, some (some transferred) => transferred
  | false, some none => []
  | false, none => []
  | true, _ => []

/-- Per-document outcome of the remote calls inside the loop's `try` block:
whether anything threw (readFileSync, cheerio, ...), the result of the
initial `createOrUpdatePage` and the result of the final one
(`createOrUpdatePage` itself catches errors and returns `null`, here
`none`). -/
structure DocOutcome where
  threw : Bool
  firstPageId : Option Nat
  finalPageId : Option Nat
deriving DecidableEq

/-- The body of one iteration of `importHtmlFiles` after the skip check:
on a throw the `catch` logs and nothing is recorded; when the initial
`createOrUpdatePage` returns `null` the loop `continue`s; otherwise
`processImagesAndLinks` and the final `createOrUpdatePage` run — whose
result is not inspected — and `state.transferred.push(file)` executes. -/
def docStep (transferred : List LC) (file : LC) (oc : DocOutcome) : List LC :=
  if oc.threw then transferred
  else
    match oc.firstPageId with
    | none => transferred
    | some _ => transferred ++ [file]

/-- One full iteration including the `state.transferred.includes(file)` skip
check. -/
def processOneDoc (transferred : List LC) (file : LC) (oc : DocOutcome) :
    List LC :=
  if transferred.contains file then transferred else docStep transferred file oc

/-- The document loop of `importHtmlFiles()`: the files from the index in
order; already-transferred files are skipped, the others are processed
(second component, in order) with the state threaded through. -/
def importHtmlFiles (oracle : LC → DocOutcome) :
    List (LC × LC) → List LC → List LC × List (LC × LC)
  | [], transferred => (transferred, [])
  | (file, title) :: rest, transferred =>
    if transferred.contains file then
      importHtmlFiles oracle rest transferred
    else
      let transferred1 := docStep transferred file (oracle file)
      let r := importHtmlFiles oracle rest transferred1
      (r.1, (file, title) :: r.2)

theorem docStep_cases (transferred : List LC) (file : LC) (oc : DocOutcome) :
    docStep transferred file oc = transferred
    ∨ docStep transferred file oc = transferred ++ [file] := by
  unfold docStep
  rcases oc.threw with _ | _ <;> rcases oc.firstPageId with _ | _ <;> simp

/-- C4 counterexample: a document whose initial page creation succeeds but
whose final content update fails (`createOrUpdatePage` returns `null`) is
still pushed onto the transferred list — the loop never inspects the final
update's result. -/
theorem processOneDoc_records_despite_failed_update :
    (⟨false, some 1, none⟩ : DocOutcome).finalPageId = none
    ∧ "a.html".toList ∈ processOneDoc [] ("a.html".toList) ⟨false, some 1, none⟩ := by
  constructor
  · rfl
  · decide

/-- C4 (amended): a document identity is appended to the transfer state
exactly when it was not already transferred, nothing threw inside the
iteration, and the initial `createOrUpdatePage` returned a page id — the
result of the final content update is irrelevant: a document whose final
page update fails is recorded as transferred all the same. -/
theorem processOneDoc_mem (transferred : List LC) (file : LC) (oc : DocOutcome) :
    file ∈ processOneDoc transferred file oc
      ↔ (file ∈ transferred ∨ (oc.threw = false ∧ oc.firstPageId.isSome = true)) := by
  unfold processOneDoc docStep
  rcases hmem : transferred.contains file with _ | _ <;>
    rcases ht : oc.threw with _ | _ <;>
      rcases hf : oc.firstPageId with _ | pid <;>
        simp_all

theorem importHtmlFiles_filter (oracle : LC → DocOutcome) (files : List (LC × LC))
    (transferred : List LC)
    (hnd : (files.map (fun fd => fd.1)).Nodup) :
    (importHtmlFiles oracle files transferred).2
      = files.filter (fun fd => !(transferred.contains fd.1)) := by
  induction files generalizing transferred with
  | nil => rfl
  | cons fd rest ih =>
    obtain ⟨file, title⟩ := fd
    rw [List.map_cons, List.nodup_cons] at hnd
    rcases hc : transferred.contains file with _ | _
    · -- not yet transferred: the document is processed
      have hfilter : rest.filter
            (fun fd => !((docStep transferred file (oracle file)).contains fd.1))
          = rest.filter (fun fd => !(transferred.contains fd.1)) := by
        refine List.filter_congr ?_
        intro a ha
        have hne : a.1 ≠ file := by
          intro he
          exact hnd.1 (he ▸ List.mem_map_of_mem (fun fd => fd.1) ha)
        rcases docStep_cases transferred file (oracle file) with h | h <;> rw [h]
        simp [hne]
      have h1 : (importHtmlFiles oracle ((file, title) :: rest) transferred).2
          = (file, title)
            :: (importHtmlFiles oracle rest (docStep transferred file (oracle file))).2 := by
        rw [importHtmlFiles, hc]
        simp
      rw [h1, ih _ hnd.2, hfilter, List.filter_cons]
      have hmem : file ∉ transferred := by simpa using hc
      simp [hmem]
    · -- already transferred: skipped
      have h1 : (importHtmlFiles oracle ((file, title) :: rest) transferred).2
          = (importHtmlFiles oracle rest transferred).2 := by
        rw [importHtmlFiles, hc]
        simp
      rw [h1, ih _ hnd.2, List.filter_cons]
      have hmem : file ∈ transferred := by simpa using hc
      simp [hmem]

/-- C5 (amended): with resume enabled, the documents the run processes are
exactly the entries of `getHtmlFilesFromIndex` — which always begins with
`index.html` / `Index Page` before the index's own links — whose file is
not in the transferred set; every transferred document is skipped and no
listed-and-existing document other than the transferred ones is skipped. -/
theorem importHtmlFiles_resume (oracle : LC → DocOutcome) (links : List IndexLink)
    (fileExists : LC → Bool) (transferred : List LC)
    (hnd : ((getHtmlFilesFromIndex links fileExists).map (fun fd => fd.1)).Nodup) :
    (importHtmlFiles oracle (getHtmlFilesFromIndex links fileExists) transferred).2
      = (getHtmlFilesFromIndex links fileExists).filter
          (fun fd => !(transferred.contains fd.1)) :=
  importHtmlFiles_filter oracle _ transferred hnd

/-- The three-document index of the resume scenario. -/
def resumeLinks : List IndexLink :=
  [⟨some "a.html".toList, "A".toList⟩,
   ⟨some "b.html".toList, "B".toList⟩,
   ⟨some "c.html".toList, "C".toList⟩]

/-- An oracle whose documents all succeed. -/
def allOkOutcome : LC → DocOutcome := fun _ => ⟨false, some 1, some 1⟩

/-- C5 counterexample: with the persisted state listing `b.html` and the
index enumerating a/b/c (all on disk), the run does not process only
`a.html` and `c.html`: `getHtmlFilesFromIndex` prepends `index.html`, so the
processed documents are `index.html`, `a.html`, `c.html`. -/
theorem importHtmlFiles_resume_processes_index_page :
    (importHtmlFiles allOkOutcome
        (getHtmlFilesFromIndex resumeLinks (fun _ => true))
        (loadState false (some (some ["b.html".toList])))).2.map (fun fd => fd.1)
      = ["index.html".toList, "a.html".toList, "c.html".toList] := by
  decide

/-- Witness for `importHtmlFiles_resume` at the resume scenario: the file
names are distinct, and the processed list is the filtered index list. -/
theorem importHtmlFiles_resume_witness :
    (importHtmlFiles allOkOutcome
        (getHtmlFilesFromIndex resumeLinks (fun _ => true))
        ["b.html".toList]).2
      = (getHtmlFilesFromIndex resumeLinks (fun _ => true)).filter
          (fun fd => !((["b.html".toList] : List LC).contains fd.1)) :=
  importHtmlFiles_resume allOkOutcome resumeLinks (fun _ => true)
    ["b.html".toList] (by decide)

-- ======================================================================
-- Reference rewriter: processImagesAndLinks
-- (src/unnamed/part_002, lines 245-254 and 388-509)
-- ======================================================================

/-- `escapeHTML(str)`: the five XML-special characters become entities. -/
def escapeChar (c : Char) : LC :=
  if c = '&' then "&amp;".toList
  else if c = '<' then "&lt;".toList
  else if c = '>' then "&gt;".toList
  else if c = Char.ofNat 39 then "&#39;".toList
  else if c = '"' then "&quot;".toList
  else [c]

def escapeHTML : LC → LC
  | [] => []
  | c :: cs => escapeChar c ++ escapeHTML cs

/-- The fixed downloadable-extension list. -/
def downloadableExtensions : List LC :=
  [".pdf".toList, ".docx".toList, ".xlsx".toList, ".zip".toList,
   ".pptx".toList, ".txt".toList, ".csv".toList]

/-- `pageMap[href]` as a JavaScript truthiness test: a missing key and the
empty string are both falsy. -/
def lookupTruthy (pageMap : List (LC × LC)) (href : LC) : Option LC :=
  match objGet pageMap href with
  | some v => if v = [] then none else some v
  | none => none

/-- The Confluence markup an element is replaced with. -/
inductive Replacement where
  | imageTag (filename : LC)
  | pageRef (title : LC) (body : LC)
  | anchorRef (fragId : LC) (body : LC)
  | imageLink (inner : LC)
  | attachmentRef (href : LC) (body : LC)
deriving DecidableEq

/-- The kind of a document element: an image (with its `src`), an anchor
(with `href`, text content and inner HTML), or anything else. -/
inductive NodeKind where
  | img (src : Option LC)
  | anchor (href : Option LC) (text : LC) (inner : LC)
  | plain
deriving DecidableEq

/-- One document element: its kind plus its identity (`id`) attribute,
which this variant of `cleanHtml` does not strip. -/
structure Node where
  kind : NodeKind
  idAttr : Option LC
deriving DecidableEq

/-- An element during rewriting: the original node, the replacement that
detached it (if any), and the anchor ids prepended to it so far. -/
structure PNode where
  node : Node
  repl : Option Replacement
  pre : List LC
deriving DecidableEq

/-- The if/else chain over one `<a>` element (part_002 lines 437-504):
PageMap hit (truthy) → page-reference macro with the escaped mapped title;
else fragment href → anchor-reference macro; else an image queued for
upload → plain link wrap; else downloadable extension and the file exists →
attachment macro (and the file is queued); a missing file or anything else
leaves the element untouched. -/
def classifyLink (pageMap : List (LC × LC)) (imagesToUpload : List LC)
    (fileExists : LC → Bool) (href text inner : LC) : Option Replacement :=
  match lookupTruthy pageMap href with
  | some linkedTitle => some (.pageRef (escapeHTML linkedTitle) text)
  | none =>
    if strStartsWith href ("#".toList) then
      some (.anchorRef (href.drop 1) text)
    else if imagesToUpload.contains href then
      some (.imageLink inner)
    else if downloadableExtensions.contains (extnameLower href) then
      (if fileExists href then some (.attachmentRef href text) else none)
    else none

/-- The image phase applied to one element: an `<img>` with a `src` whose
file exists is replaced by an `ac:image` macro for its basename; a missing
file only logs.  Per-element, side-effect free. -/
def imagePassNode (fileExists : LC → Bool) (n : Node) : PNode :=
  match n.kind with
  | .img (some src) =>
    if fileExists src then ⟨n, some (.imageTag (basenameOf src)), []⟩
    else ⟨n, none, []⟩
  | _ => ⟨n, none, []⟩

/-- The `imagesToUpload` list accumulated by the image phase, in order. -/
def imagesToUploadOf (fileExists : LC → Bool) (doc : List Node) : List LC :=
  doc.filterMap (fun n =>
    match n.kind with
    | .img (some src) => if fileExists src then some src else none
    | _ => none)

/-- `$(targetEl).prepend(anchorMacroFor(tid))` on the selection `$('#tid')`:
every still-attached element whose `id` equals `tid` receives the anchor
macro. -/
def prependAnchorAll (tid : LC) (ns : List PNode) : List PNode :=
  ns.map (fun q =>
    if q.repl = none ∧ q.node.idAttr = some tid then ⟨q.node, q.repl, q.pre ++ [tid]⟩
    else q)

/-- One iteration of the link loop at element index `i` over the current
document and `filesToUpload` list: classify the anchor's `href`, detach it
with its replacement, and for the fragment branch prepend the anchor macro
to the matching target elements (the search runs after the `replaceWith`,
so it only sees still-attached elements). -/
def linkStep (pageMap : List (LC × LC)) (imgs : List LC) (fileExists : LC → Bool)
    (st : List PNode × List LC) (i : Nat) : List PNode × List LC :=
  match st.1[i]? with
  | none => st
  | some pn =>
    match pn.node.kind with
    | .anchor (some href) text inner =>
      match classifyLink pageMap imgs fileExists href text inner with
      | none => st
      | some r =>
        let ns := st.1.set i ⟨pn.node, some r, pn.pre⟩
        match r with
        | .anchorRef tid _ => (prependAnchorAll tid ns, st.2)
        | .attachmentRef h _ => (ns, st.2 ++ [h])
        | _ => (ns, st.2)
    | _ => st

/-- The whole link loop: the `$('a')` snapshot is the elements in document
order, visited once each. -/
def linkPass (pageMap : List (LC × LC)) (imgs : List LC) (fileExists : LC → Bool)
    (pns : List PNode) : List PNode × List LC :=
  (List.range pns.length).foldl (linkStep pageMap imgs fileExists) (pns, [])

/-- Result of `processImagesAndLinks`: the rewritten elements and the
`files` list `[...filesToUpload, ...imagesToUpload]`. -/
structure RewriteResult where
  nodes : List PNode
  files : List LC
deriving DecidableEq

/-- `processImagesAndLinks(html, title, pageMap, basePath)` over the element
list of the document: image phase first, then the link loop. -/
def processImagesAndLinks (pageMap : List (LC × LC)) (fileExists : LC → Bool)
    (doc : List Node) : RewriteResult :=
  let imgs := imagesToUploadOf fileExists doc
  let pns := doc.map (imagePassNode fileExists)
  let r := linkPass pageMap imgs fileExists pns
  ⟨r.1, r.2 ++ imgs⟩

theorem range_split (i n : Nat) (h : i < n) :
    List.range n = List.range i ++ i :: List.range' (i + 1) (n - i - 1) := by
  rw [List.range_eq_range' n, List.range_eq_range' i]
  have h2 : List.range' 0 i ++ List.range' (0 + i) (n - i) = List.range' 0 (n - i + i) := by
    simpa using List.range'_append 0 i (n - i) 1
  have h3 : n - i + i = n := by omega
  rw [h3] at h2
  rw [← h2]
  congr 1
  simp only [Nat.zero_add]
  have h4 : n - i = (n - i - 1) + 1 := by omega
  rw [h4, List.range'_succ]
  simp

theorem getElem?_set_some (l : List PNode) (i : Nat) (x pn : PNode)
    (h : l[i]? = some pn) : (l.set i x)[i]? = some x := by
  have hlen : i < l.length := by
    rcases List.getElem?_eq_some_iff.mp h with ⟨hl, _⟩
    exact hl
  simp [List.getElem?_set_self, hlen]

theorem prependAnchorAll_node (tid : LC) (ns : List PNode) (j : Nat) :
    ((prependAnchorAll tid ns)[j]?).map (fun q => q.node)
      = (ns[j]?).map (fun q => q.node) := by
  rcases hq : ns[j]? with _ | q <;>
    simp only [prependAnchorAll, List.getElem?_map, hq, Option.map_some',
      Option.map_none']
  split <;> rfl

theorem prependAnchorAll_repl (tid : LC) (ns : List PNode) (j : Nat) :
    ((prependAnchorAll tid ns)[j]?).map (fun q => q.repl)
      = (ns[j]?).map (fun q => q.repl) := by
  rcases hq : ns[j]? with _ | q <;>
    simp only [prependAnchorAll, List.getElem?_map, hq, Option.map_some',
      Option.map_none']
  split <;> rfl

theorem prependAnchorAll_pre_mem (tid : LC) (ns : List PNode) (j : Nat)
    (q : PNode) (t : LC) (hq : ns[j]? = some q) (ht : t ∈ q.pre) :
    ∃ q2, (prependAnchorAll tid ns)[j]? = some q2 ∧ t ∈ q2.pre := by
  simp only [prependAnchorAll, List.getElem?_map, hq, Option.map_some']
  split
  · exact ⟨_, rfl, by simp [ht]⟩
  · exact ⟨q, rfl, ht⟩

theorem prependAnchorAll_adds (tid : LC) (ns : List PNode) (j : Nat)
    (q : PNode) (hq : ns[j]? = some q) (hrepl : q.repl = none)
    (hid : q.node.idAttr = some tid) :
    (prependAnchorAll tid ns)[j]? = some ⟨q.node, q.repl, q.pre ++ [tid]⟩ := by
  simp only [prependAnchorAll, List.getElem?_map, hq, Option.map_some']
  rw [if_pos ⟨hrepl, hid⟩]

theorem linkStep_fst_cases (pm : List (LC × LC)) (imgs : List LC)
    (fe : LC → Bool) (st : List PNode × List LC) (i : Nat) :
    (linkStep pm imgs fe st i).1 = st.1
    ∨ (∃ pn r, st.1[i]? = some pn
        ∧ (linkStep pm imgs fe st i).1 = st.1.set i ⟨pn.node, some r, pn.pre⟩)
    ∨ (∃ pn tid b, st.1[i]? = some pn
        ∧ (linkStep pm imgs fe st i).1
          = prependAnchorAll tid
              (st.1.set i ⟨pn.node, some (Replacement.anchorRef tid b), pn.pre⟩)) := by
  rcases hsi : st.1[i]? with _ | pn
  · exact Or.inl (by simp [linkStep, hsi])
  · rcases hk : pn.node.kind with src | ⟨href?, text, inner⟩ | _
    · exact Or.inl (by simp [linkStep, hsi, hk])
    · rcases href? with _ | href
      · exact Or.inl (by simp [linkStep, hsi, hk])
      · rcases hc : classifyLink pm imgs fe href text inner with _ | r
        · exact Or.inl (by simp [linkStep, hsi, hk, hc])
        · rcases r with f | ⟨t, b⟩ | ⟨tid, b⟩ | inn | ⟨h, b⟩
          · exact Or.inr (Or.inl ⟨pn, Replacement.imageTag f, rfl,
              by simp [linkStep, hsi, hk, hc]⟩)
          · exact Or.inr (Or.inl ⟨pn, Replacement.pageRef t b, rfl,
              by simp [linkStep, hsi, hk, hc]⟩)
          · exact Or.inr (Or.inr ⟨pn, tid, b, rfl, by simp [linkStep, hsi, hk, hc]⟩)
          · exact Or.inr (Or.inl ⟨pn, Replacement.imageLink inn, rfl,
              by simp [linkStep, hsi, hk, hc]⟩)
          · exact Or.inr (Or.inl ⟨pn, Replacement.attachmentRef h b, rfl,
              by simp [linkStep, hsi, hk, hc]⟩)
    · exact Or.inl (by simp [linkStep, hsi, hk])

theorem prependAnchorAll_skip (tid : LC) (ns : List PNode) (j : Nat)
    (q : PNode) (r : Replacement) (hq : ns[j]? = some q)
    (hrepl : q.repl = some r) :
    (prependAnchorAll tid ns)[j]? = some q := by
  simp only [prependAnchorAll, List.getElem?_map, hq, Option.map_some']
  rw [if_neg]
  rintro ⟨h1, _⟩
  rw [hrepl] at h1
  exact Option.noConfusion h1

theorem linkStep_eq_of_classify (pm : List (LC × LC)) (imgs : List LC)
    (fe : LC → Bool) (st : List PNode × List LC) (i : Nat) (pn : PNode)
    (href text inner : LC) (r : Replacement)
    (hsi : st.1[i]? = some pn)
    (hk : pn.node.kind = NodeKind.anchor (some href) text inner)
    (hc : classifyLink pm imgs fe href text inner = some r) :
    (linkStep pm imgs fe st i).1
      = match r with
        | .anchorRef tid _ =>
          prependAnchorAll tid (st.1.set i ⟨pn.node, some r, pn.pre⟩)
        | _ => st.1.set i ⟨pn.node, some r, pn.pre⟩ := by
  rcases r <;> simp [linkStep, hsi, hk, hc]

theorem linkStep_node (pm : List (LC × LC)) (imgs : List LC) (fe : LC → Bool)
    (st : List PNode × List LC) (i j : Nat) :
    ((linkStep pm imgs fe st i).1[j]?).map (fun q => q.node)
      = (st.1[j]?).map (fun q => q.node) := by
  rcases linkStep_fst_cases pm imgs fe st i with h | ⟨pn, r, hsi, h⟩ | ⟨pn, tid, b, hsi, h⟩
  · rw [h]
  · rw [h]
    by_cases hij : j = i
    · subst hij
      rw [getElem?_set_some _ _ _ _ hsi, hsi]
      rfl
    · rw [List.getElem?_set_ne (fun he => hij he.symm)]
  · rw [h, prependAnchorAll_node]
    by_cases hij : j = i
    · subst hij
      rw [getElem?_set_some _ _ _ _ hsi, hsi]
      rfl
    · rw [List.getElem?_set_ne (fun he => hij he.symm)]

theorem linkStep_repl_ne (pm : List (LC × LC)) (imgs : List LC) (fe : LC → Bool)
    (st : List PNode × List LC) (i j : Nat) (hij : j ≠ i) :
    ((linkStep pm imgs fe st i).1[j]?).map (fun q => q.repl)
      = (st.1[j]?).map (fun q => q.repl) := by
  rcases linkStep_fst_cases pm imgs fe st i with h | ⟨pn, r, hsi, h⟩ | ⟨pn, tid, b, hsi, h⟩
  · rw [h]
  · rw [h, List.getElem?_set_ne (fun he => hij he.symm)]
  · rw [h, prependAnchorAll_repl, List.getElem?_set_ne (fun he => hij he.symm)]

theorem linkStep_pre_mem (pm : List (LC × LC)) (imgs : List LC) (fe : LC → Bool)
    (st : List PNode × List LC) (i j : Nat) (q : PNode) (t : LC)
    (hq : st.1[j]? = some q) (ht : t ∈ q.pre) :
    ∃ q2, (linkStep pm imgs fe st i).1[j]? = some q2 ∧ t ∈ q2.pre := by
  rcases linkStep_fst_cases pm imgs fe st i with h | ⟨pn, r, hsi, h⟩ | ⟨pn, tid, b, hsi, h⟩
  · exact ⟨q, h ▸ hq, ht⟩
  · by_cases hij : j = i
    · subst hij
      have hqpn : q = pn := by rw [hq] at hsi; exact Option.some_inj.mp hsi
      subst hqpn
      exact ⟨⟨q.node, some r, q.pre⟩, h ▸ getElem?_set_some _ _ _ _ hq, ht⟩
    · exact ⟨q, by rw [h, List.getElem?_set_ne (fun he => hij he.symm)]; exact hq, ht⟩
  · by_cases hij : j = i
    · subst hij
      have hqpn : q = pn := by rw [hq] at hsi; exact Option.some_inj.mp hsi
      subst hqpn
      have hset : (st.1.set j ⟨q.node, some (Replacement.anchorRef tid b), q.pre⟩)[j]?
          = some ⟨q.node, some (Replacement.anchorRef tid b), q.pre⟩ :=
        getElem?_set_some _ _ _ _ hq
      have := prependAnchorAll_skip tid _ j _ (Replacement.anchorRef tid b) hset rfl
      exact ⟨⟨q.node, some (Replacement.anchorRef tid b), q.pre⟩, h ▸ this, ht⟩
    · have hset : (st.1.set i ⟨pn.node, some (Replacement.anchorRef tid b), pn.pre⟩)[j]?
          = some q := by
        rw [List.getElem?_set_ne (fun he => hij he.symm)]; exact hq
      have := prependAnchorAll_pre_mem tid _ j q t hset ht
      rcases this with ⟨q2, hq2, ht2⟩
      exact ⟨q2, h ▸ hq2, ht2⟩

theorem linkStep_sets_repl (pm : List (LC × LC)) (imgs : List LC) (fe : LC → Bool)
    (st : List PNode × List LC) (i : Nat) (pn : PNode) (href text inner : LC)
    (r : Replacement)
    (hsi : st.1[i]? = some pn)
    (hk : pn.node.kind = NodeKind.anchor (some href) text inner)
    (hc : classifyLink pm imgs fe href text inner = some r) :
    ∃ q2, (linkStep pm imgs fe st i).1[i]? = some q2
      ∧ q2.repl = some r ∧ q2.node = pn.node := by
  have heq := linkStep_eq_of_classify pm imgs fe st i pn href text inner r hsi hk hc
  have hset : (st.1.set i ⟨pn.node, some r, pn.pre⟩)[i]?
      = some ⟨pn.node, some r, pn.pre⟩ := getElem?_set_some _ _ _ _ hsi
  rcases r with f | ⟨t, b⟩ | ⟨tid, b⟩ | inn | ⟨h, b⟩
  · exact ⟨⟨pn.node, some (Replacement.imageTag f), pn.pre⟩,
      by rw [heq]; exact hset, rfl, rfl⟩
  · exact ⟨⟨pn.node, some (Replacement.pageRef t b), pn.pre⟩,
      by rw [heq]; exact hset, rfl, rfl⟩
  · refine ⟨⟨pn.node, some (Replacement.anchorRef tid b), pn.pre⟩, ?_, rfl, rfl⟩
    rw [heq]
    exact prependAnchorAll_skip tid _ i _ (Replacement.anchorRef tid b) hset rfl
  · exact ⟨⟨pn.node, some (Replacement.imageLink inn), pn.pre⟩,
      by rw [heq]; exact hset, rfl, rfl⟩
  · exact ⟨⟨pn.node, some (Replacement.attachmentRef h b), pn.pre⟩,
      by rw [heq]; exact hset, rfl, rfl⟩

theorem linkStep_anchor_prepends (pm : List (LC × LC)) (imgs : List LC)
    (fe : LC → Bool) (st : List PNode × List LC) (i j : Nat) (pn q : PNode)
    (href text inner tid b : LC)
    (hsi : st.1[i]? = some pn)
    (hk : pn.node.kind = NodeKind.anchor (some href) text inner)
    (hc : classifyLink pm imgs fe href text inner
        = some (Replacement.anchorRef tid b))
    (hij : j ≠ i) (hq : st.1[j]? = some q) (hrepl : q.repl = none)
    (hid : q.node.idAttr = some tid) :
    (linkStep pm imgs fe st i).1[j]? = some ⟨q.node, q.repl, q.pre ++ [tid]⟩ := by
  have heq := linkStep_eq_of_classify pm imgs fe st i pn href text inner
    (Replacement.anchorRef tid b) hsi hk hc
  rw [heq]
  have hset : (st.1.set i ⟨pn.node, some (Replacement.anchorRef tid b), pn.pre⟩)[j]?
      = some q := by
    rw [List.getElem?_set_ne (fun he => hij he.symm)]; exact hq
  exact prependAnchorAll_adds tid _ j q hset hrepl hid

theorem foldl_linkStep_node (pm : List (LC × LC)) (imgs : List LC)
    (fe : LC → Bool) (idxs : List Nat) :
    ∀ (st : List PNode × List LC) (j : Nat),
    ((idxs.foldl (linkStep pm imgs fe) st).1[j]?).map (fun q => q.node)
      = (st.1[j]?).map (fun q => q.node) := by
  induction idxs with
  | nil => intro st j; rfl
  | cons k ks ih =>
    intro st j
    rw [List.foldl_cons, ih, linkStep_node]

theorem foldl_linkStep_repl (pm : List (LC × LC)) (imgs : List LC)
    (fe : LC → Bool) (idxs : List Nat) :
    ∀ (st : List PNode × List LC) (j : Nat), (∀ k ∈ idxs, k ≠ j) →
    ((idxs.foldl (linkStep pm imgs fe) st).1[j]?).map (fun q => q.repl)
      = (st.1[j]?).map (fun q => q.repl) := by
  induction idxs with
  | nil => intro st j _; rfl
  | cons k ks ih =>
    intro st j hk
    rw [List.foldl_cons, ih _ _ (fun m hm => hk m (List.mem_cons_of_mem k hm)),
      linkStep_repl_ne]
    exact (hk k (List.mem_cons_self k ks)).symm

theorem foldl_linkStep_pre_mem (pm : List (LC × LC)) (imgs : List LC)
    (fe : LC → Bool) (idxs : List Nat) :
    ∀ (st : List PNode × List LC) (j : Nat) (q : PNode) (t : LC),
    st.1[j]? = some q → t ∈ q.pre →
    ∃ q2, (idxs.foldl (linkStep pm imgs fe) st).1[j]? = some q2 ∧ t ∈ q2.pre := by
  induction idxs with
  | nil => intro st j q t hq ht; exact ⟨q, hq, ht⟩
  | cons k ks ih =>
    intro st j q t hq ht
    rw [List.foldl_cons]
    rcases linkStep_pre_mem pm imgs fe st k j q t hq ht with ⟨q2, hq2, ht2⟩
    exact ih _ _ _ _ hq2 ht2

theorem linkStep_self_plain (pm : List (LC × LC)) (imgs : List LC)
    (fe : LC → Bool) (st : List PNode × List LC) (j : Nat) (q : PNode)
    (hq : st.1[j]? = some q) (hkind : q.node.kind = NodeKind.plain) :
    linkStep pm imgs fe st j = st := by
  simp [linkStep, hq, hkind]

theorem foldl_linkStep_plain_state (pm : List (LC × LC)) (imgs : List LC)
    (fe : LC → Bool) (idxs : List Nat) :
    ∀ (st : List PNode × List LC) (j : Nat) (q : PNode),
    st.1[j]? = some q → q.node.kind = NodeKind.plain → q.repl = none →
    ∃ q2, (idxs.foldl (linkStep pm imgs fe) st).1[j]? = some q2
      ∧ q2.node = q.node ∧ q2.repl = none := by
  induction idxs with
  | nil => exact fun st j q hq _ hr => ⟨q, hq, rfl, hr⟩
  | cons k ks ih =>
    intro st j q hq hkind hr
    rw [List.foldl_cons]
    by_cases hkj : k = j
    · subst hkj
      rw [linkStep_self_plain pm imgs fe st k q hq hkind]
      exact ih st k q hq hkind hr
    · have hnode := linkStep_node pm imgs fe st k j
      have hrepl := linkStep_repl_ne pm imgs fe st k j (fun he => hkj he.symm)
      rw [hq] at hnode hrepl
      obtain ⟨q1, hq1, hq1n⟩ := Option.map_eq_some'.mp hnode
      have hq1r : q1.repl = none := by
        rw [hq1] at hrepl
        simp only [Option.map_some'] at hrepl
        rw [Option.some_inj.mp hrepl, hr]
      obtain ⟨q2, h2, h2n, h2r⟩ := ih _ j q1 hq1 (by rw [hq1n, hkind]) hq1r
      exact ⟨q2, h2, h2n.trans hq1n, h2r⟩

theorem linkPass_repl_of_classify (pm : List (LC × LC)) (imgs : List LC)
    (fe : LC → Bool) (pns : List PNode) (i : Nat) (pn : PNode)
    (href text inner : LC) (r : Replacement)
    (hpn : pns[i]? = some pn)
    (hk : pn.node.kind = NodeKind.anchor (some href) text inner)
    (hc : classifyLink pm imgs fe href text inner = some r) :
    ∃ q, (linkPass pm imgs fe pns).1[i]? = some q
      ∧ q.repl = some r ∧ q.node = pn.node := by
  have hlen : i < pns.length := by
    rcases List.getElem?_eq_some_iff.mp hpn with ⟨hl, _⟩
    exact hl
  have hfold : (linkPass pm imgs fe pns).1
      = ((List.range' (i + 1) (pns.length - i - 1)).foldl (linkStep pm imgs fe)
          (linkStep pm imgs fe
            ((List.range i).foldl (linkStep pm imgs fe) (pns, [])) i)).1 := by
    show ((List.range pns.length).foldl (linkStep pm imgs fe) (pns, [])).1 = _
    rw [range_split i pns.length hlen, List.foldl_append, List.foldl_cons]
  have hAnode : ((((List.range i).foldl (linkStep pm imgs fe)
      ((pns, []) : List PNode × List LC)).1[i]?).map (fun q => q.node))
      = some pn.node := by
    rw [foldl_linkStep_node, hpn]
    rfl
  have hArepl : ((((List.range i).foldl (linkStep pm imgs fe)
      ((pns, []) : List PNode × List LC)).1[i]?).map (fun q => q.repl))
      = some pn.repl := by
    rw [foldl_linkStep_repl pm imgs fe (List.range i) (pns, []) i
      (fun k hk2 => Nat.ne_of_lt (List.mem_range.mp hk2)), hpn]
    rfl
  obtain ⟨pnA, hA, hAn⟩ := Option.map_eq_some'.mp hAnode
  have hAkind : pnA.node.kind = NodeKind.anchor (some href) text inner := by
    rw [hAn, hk]
  obtain ⟨q2, hq2, hq2r, hq2n⟩ :=
    linkStep_sets_repl pm imgs fe _ i pnA href text inner r hA hAkind hc
  have hBnode := foldl_linkStep_node pm imgs fe
    (List.range' (i + 1) (pns.length - i - 1))
    (linkStep pm imgs fe ((List.range i).foldl (linkStep pm imgs fe) (pns, [])) i) i
  have hBrepl := foldl_linkStep_repl pm imgs fe
    (List.range' (i + 1) (pns.length - i - 1))
    (linkStep pm imgs fe ((List.range i).foldl (linkStep pm imgs fe) (pns, [])) i) i
    (fun k hk2 => by
      have := (List.mem_range'_1.mp hk2).1
      omega)
  rw [hq2] at hBnode hBrepl
  simp only [Option.map_some'] at hBnode hBrepl
  obtain ⟨qF, hF, hFr⟩ := Option.map_eq_some'.mp (hBrepl.trans (by rw [hq2r]))
  have hFn : qF.node = pn.node := by
    obtain ⟨qF2, hF2, hFn2⟩ := Option.map_eq_some'.mp
      (hBnode.trans (by rw [hq2n, hAn]))
    rw [hF] at hF2
    rw [← Option.some_inj.mp hF2] at hFn2
    exact hFn2
  exact ⟨qF, by rw [hfold]; exact hF, hFr, hFn⟩

theorem linkPass_anchor_prepend (pm : List (LC × LC)) (imgs : List LC)
    (fe : LC → Bool) (pns : List PNode) (i j : Nat) (pn q : PNode)
    (href text inner tid b : LC)
    (hpn : pns[i]? = some pn)
    (hk : pn.node.kind = NodeKind.anchor (some href) text inner)
    (hc : classifyLink pm imgs fe href text inner
        = some (Replacement.anchorRef tid b))
    (hij : j ≠ i) (hq : pns[j]? = some q)
    (hqk : q.node.kind = NodeKind.plain) (hqr : q.repl = none)
    (hid : q.node.idAttr = some tid) :
    ∃ q2, (linkPass pm imgs fe pns).1[j]? = some q2 ∧ tid ∈ q2.pre := by
  have hlen : i < pns.length := by
    rcases List.getElem?_eq_some_iff.mp hpn with ⟨hl, _⟩
    exact hl
  have hfold : (linkPass pm imgs fe pns).1
      = ((List.range' (i + 1) (pns.length - i - 1)).foldl (linkStep pm imgs fe)
          (linkStep pm imgs fe
            ((List.range i).foldl (linkStep pm imgs fe) (pns, [])) i)).1 := by
    show ((List.range pns.length).foldl (linkStep pm imgs fe) (pns, [])).1 = _
    rw [range_split i pns.length hlen, List.foldl_append, List.foldl_cons]
  -- state at the anchor position before its own step
  have hAnode : ((((List.range i).foldl (linkStep pm imgs fe)
      ((pns, []) : List PNode × List LC)).1[i]?).map (fun q => q.node))
      = some pn.node := by
    rw [foldl_linkStep_node, hpn]
    rfl
  obtain ⟨pnA, hA, hAn⟩ := Option.map_eq_some'.mp hAnode
  have hAkind : pnA.node.kind = NodeKind.anchor (some href) text inner := by
    rw [hAn, hk]
  -- state at the target position before the anchor's step
  obtain ⟨q1, hq1, hq1n, hq1r⟩ := foldl_linkStep_plain_state pm imgs fe
    (List.range i) (pns, []) j q hq hqk hqr
  -- the anchor's step prepends the macro to the target
  have hstep := linkStep_anchor_prepends pm imgs fe
    ((List.range i).foldl (linkStep pm imgs fe) (pns, [])) i j pnA q1
    href text inner tid b hA hAkind hc hij hq1 hq1r (by rw [hq1n]; exact hid)
  -- later steps only add more prepends
  obtain ⟨q2, hq2, ht2⟩ := foldl_linkStep_pre_mem pm imgs fe
    (List.range' (i + 1) (pns.length - i - 1)) _ j
    ⟨q1.node, q1.repl, q1.pre ++ [tid]⟩ tid hstep (by simp)
  exact ⟨q2, by rw [hfold]; exact hq2, ht2⟩

/-- The index and document refuting C8 as stated: node
`path.basename('.html', '.html')` is the empty string, so an index link
`<a href=".html"></a>` puts the key `.html` into the PageMap with the empty
(falsy) title. -/
def emptyTitleLinks : List IndexLink := [⟨some ".html".toList, []⟩]

def emptyTitleDoc : List Node :=
  [⟨NodeKind.anchor (some ".html".toList) "x".toList "x".toList, none⟩]

/-- C8 counterexample: `.html` is a key of the PageMap built from
`emptyTitleLinks` (its mapped title is the empty string), yet the rewriter
does not replace an anchor with that href by a page-reference macro — the
JavaScript truthiness test `if (pageMap[href])` fails on the empty string,
and the element falls through the whole chain untouched. -/
theorem processImagesAndLinks_empty_title_key :
    objGet (getPageMap emptyTitleLinks) (".html".toList) = some []
    ∧ (processImagesAndLinks (getPageMap emptyTitleLinks) (fun _ => false)
        emptyTitleDoc).nodes.map (fun q => q.repl) = [none] := by
  decide

/-- C8 (amended): link classification precedence.  For every anchor element
whose `href` is a key of the PageMap built by `getPageMap` with a non-empty
(truthy) mapped title, the rewriter replaces the element with a
page-reference macro carrying the mapped title (XML-escaped) and the link
text as display body — the first branch of the if/else chain wins, so the
downloadable-file branch is never taken for such a key, whatever the href's
extension.  A key mapped to the empty title (producible only by an index
link whose href is exactly `.html` with empty link text, since node's
`basename` then returns the empty string) is falsy and falls through. -/
theorem processImagesAndLinks_pageRef
    (links : List IndexLink) (fileExists : LC → Bool) (doc : List Node)
    (i : Nat) (n : Node) (href text inner title : LC)
    (hn : doc[i]? = some n)
    (hk : n.kind = NodeKind.anchor (some href) text inner)
    (hmap : objGet (getPageMap links) href = some title)
    (htne : title ≠ []) :
    ∃ q, (processImagesAndLinks (getPageMap links) fileExists doc).nodes[i]?
        = some q
      ∧ q.repl = some (Replacement.pageRef (escapeHTML title) text)
      ∧ q.node = n := by
  have htruthy : lookupTruthy (getPageMap links) href = some title := by
    simp [lookupTruthy, hmap, htne]
  have hclass : classifyLink (getPageMap links) (imagesToUploadOf fileExists doc)
      fileExists href text inner
      = some (Replacement.pageRef (escapeHTML title) text) := by
    simp [classifyLink, htruthy]
  have hpn0 : (doc.map (imagePassNode fileExists))[i]? = some ⟨n, none, []⟩ := by
    rw [List.getElem?_map, hn]
    simp [imagePassNode, hk]
  obtain ⟨q, hq, hqr, hqn⟩ := linkPass_repl_of_classify (getPageMap links)
    (imagesToUploadOf fileExists doc) fileExists
    (doc.map (imagePassNode fileExists)) i ⟨n, none, []⟩ href text inner
    (Replacement.pageRef (escapeHTML title) text) hpn0 hk hclass
  exact ⟨q, hq, hqr, hqn⟩

/-- The single-page index and document of the C8 witness. -/
def pageRefLinks : List IndexLink := [⟨some "b.html".toList, "Page B".toList⟩]

def pageRefDoc : List Node :=
  [⟨NodeKind.anchor (some "b.html".toList) "B".toList "B".toList, none⟩]

/-- Witness for `processImagesAndLinks_pageRef`: a document linking to
`b.html`, mapped by the index to title `Page B`, gets the page-reference
macro. -/
theorem processImagesAndLinks_pageRef_witness :
    ∃ q, (processImagesAndLinks (getPageMap pageRefLinks) (fun _ => false)
        pageRefDoc).nodes[0]? = some q
      ∧ q.repl = some (Replacement.pageRef (escapeHTML ("Page B".toList))
          ("B".toList))
      ∧ q.node = ⟨NodeKind.anchor (some "b.html".toList) "B".toList "B".toList, none⟩ :=
  processImagesAndLinks_pageRef pageRefLinks (fun _ => false) pageRefDoc 0
    ⟨NodeKind.anchor (some "b.html".toList) "B".toList "B".toList, none⟩
    ("b.html".toList) ("B".toList) ("B".toList) ("Page B".toList)
    rfl rfl (by decide) (by decide)

/-- C9: anchor resolution.  An anchor whose `href` is `#tid` and whose href
is falsy in the PageMap is replaced by an anchor-reference macro carrying
`tid`; and every other still-attached element with identity attribute `tid`
receives a prepended anchor-definition macro.  When no element carries the
id, the first conjunct still applies (the reference macro is emitted) and no
error is raised — every function involved is total. -/
theorem processImagesAndLinks_anchor
    (pageMap : List (LC × LC)) (fileExists : LC → Bool) (doc : List Node)
    (i : Nat) (n : Node) (tid text inner : LC)
    (hn : doc[i]? = some n)
    (hk : n.kind = NodeKind.anchor (some ('#' :: tid)) text inner)
    (hfalsy : lookupTruthy pageMap ('#' :: tid) = none) :
    (∃ q, (processImagesAndLinks pageMap fileExists doc).nodes[i]? = some q
      ∧ q.repl = some (Replacement.anchorRef tid text))
    ∧ (∀ j m, j ≠ i → doc[j]? = some m → m.kind = NodeKind.plain →
        m.idAttr = some tid →
        ∃ q2, (processImagesAndLinks pageMap fileExists doc).nodes[j]? = some q2
          ∧ tid ∈ q2.pre) := by
  have hstart : strStartsWith ('#' :: tid) ['#'] = true := by
    simp [strStartsWith]
  have hclass : classifyLink pageMap (imagesToUploadOf fileExists doc) fileExists
      ('#' :: tid) text inner = some (Replacement.anchorRef tid text) := by
    simp [classifyLink, hfalsy, hstart]
  have hpn0 : (doc.map (imagePassNode fileExists))[i]? = some ⟨n, none, []⟩ := by
    rw [List.getElem?_map, hn]
    simp [imagePassNode, hk]
  constructor
  · obtain ⟨q, hq, hqr, _⟩ := linkPass_repl_of_classify pageMap
      (imagesToUploadOf fileExists doc) fileExists
      (doc.map (imagePassNode fileExists)) i ⟨n, none, []⟩ ('#' :: tid) text inner
      (Replacement.anchorRef tid text) hpn0 hk hclass
    exact ⟨q, hq, hqr⟩
  · intro j m hij hj hmk hmid
    have hq0 : (doc.map (imagePassNode fileExists))[j]? = some ⟨m, none, []⟩ := by
      rw [List.getElem?_map, hj]
      simp [imagePassNode, hmk]
    obtain ⟨q2, hq2, ht2⟩ := linkPass_anchor_prepend pageMap
      (imagesToUploadOf fileExists doc) fileExists
      (doc.map (imagePassNode fileExists)) i j ⟨n, none, []⟩ ⟨m, none, []⟩
      ('#' :: tid) text inner tid text hpn0 hk hclass hij hq0 hmk rfl hmid
    exact ⟨q2, hq2, ht2⟩

/-- The two-element document of the C9 witness: `<a href="#sec1">go</a>`
followed by an element with `id="sec1"`. -/
def anchorDoc : List Node :=
  [⟨NodeKind.anchor (some "#sec1".toList) "go".toList "go".toList, none⟩,
   ⟨NodeKind.plain, some "sec1".toList⟩]

/-- Witness for `processImagesAndLinks_anchor` on `anchorDoc` with an empty
PageMap: the anchor becomes an anchor-reference macro for `sec1` and the
target element receives the anchor-definition macro. -/
theorem processImagesAndLinks_anchor_witness :
    (∃ q, (processImagesAndLinks [] (fun _ => false) anchorDoc).nodes[0]? = some q
      ∧ q.repl = some (Replacement.anchorRef ("sec1".toList) ("go".toList)))
    ∧ (∃ q2, (processImagesAndLinks [] (fun _ => false) anchorDoc).nodes[1]? = some q2
      ∧ "sec1".toList ∈ q2.pre) := by
  have h := processImagesAndLinks_anchor [] (fun _ => false) anchorDoc 0
    ⟨NodeKind.anchor (some "#sec1".toList) "go".toList "go".toList, none⟩
    ("sec1".toList) ("go".toList) ("go".toList) rfl rfl rfl
  exact ⟨h.1, h.2 1 ⟨NodeKind.plain, some "sec1".toList⟩ (by decide) rfl rfl rfl⟩

-- ======================================================================
-- C10: PageMap entries versus the orchestrator's file list
-- ======================================================================

/-- Index for the C10 scenario: a link to `ghost.html` (titled `Ghost`,
missing on disk) and one to `a.html` (present). -/
def ghostLinks : List IndexLink :=
  [⟨some "ghost.html".toList, "Ghost".toList⟩,
   ⟨some "a.html".toList, "A".toList⟩]

/-- Disk state of the C10 scenario: only `a.html` and `index.html` exist. -/
def ghostExists : LC → Bool :=
  fun s => (s == "a.html".toList) || (s == "index.html".toList)

/-- The body of `a.html`: a single link to the missing `ghost.html`. -/
def ghostDoc : List Node :=
  [⟨NodeKind.anchor (some "ghost.html".toList) "see".toList "see".toList, none⟩]

/-- C10: `getPageMap` admits the entry `ghost.html → Ghost` although the
file does not exist; `getHtmlFilesFromIndex` (which checks existence)
returns only `index.html` and `a.html`; the rewriter turns the link in
`a.html` into a page-reference macro naming `Ghost`; and no document the
run processes carries the title `Ghost`, so that page is never created. -/
theorem getPageMap_ghost_entry :
    objGet (getPageMap ghostLinks) ("ghost.html".toList) = some ("Ghost".toList)
    ∧ ghostExists ("ghost.html".toList) = false
    ∧ (getHtmlFilesFromIndex ghostLinks ghostExists).map (fun fd => fd.1)
        = ["index.html".toList, "a.html".toList]
    ∧ (processImagesAndLinks (getPageMap ghostLinks) ghostExists ghostDoc).nodes.map
        (fun q => q.repl)
        = [some (Replacement.pageRef ("Ghost".toList) ("see".toList))]
    ∧ "Ghost".toList ∉ (importHtmlFiles allOkOutcome
          (getHtmlFilesFromIndex ghostLinks ghostExists) []).2.map (fun fd => fd.2) := by
  decide
